import Mathlib

/-!
# Verification of the wav_splitter core

Shallow embedding of the `wav_splitter` Rust crate (`src/lib.rs`) and proofs
about its chunk-planning loop, WAV header synthesis, data-size accumulation,
packet-drain behaviour and the template-header read.

Times and durations are modelled as natural numbers (a `std::time::Duration`
is a non-negative tick count; its addition and comparison are exact).
Byte payloads are lists of naturals below 256.  32-bit / 16-bit machine
arithmetic is modelled with explicit `% 2^32` / `% 2^16`.
-/

namespace WavSplitter

/-- One decoded audio packet: a duration (ticks) and a byte payload,
as supplied by the demuxer collaborator (`packet.dur`, `packet.data`). -/
structure Packet where
  dur : Nat
  data : List Nat
deriving DecidableEq

/-- `ChunkInfo` from `src/lib.rs`: start time, end time and the list of
packet indices of the chunk. -/
structure ChunkInfo where
  start_time : Nat
  end_time : Nat
  packets : List Nat
deriving DecidableEq

/-- The inventory builder (lib.rs lines 115-125): running total of packet
durations; `packet_times[i]` is the cumulative end time of packet `i`.
`packetTimesFrom t ds` is the list pushed when the running total starts at `t`. -/
def packetTimesFrom (t : Nat) : List Nat → List Nat
  | [] => []
  | d :: ds => (t + d) :: packetTimesFrom (t + d) ds

/-- `packet_times` built from the packet durations (running total starts at 0). -/
def packetTimes (durs : List Nat) : List Nat :=
  packetTimesFrom 0 durs

/-- The inner scan of the planner (lib.rs lines 148-153): starting from
`e = start`, advance while `e < packet_times.len() &&
(e == start || packet_times[e-1] < target)`. -/
def scanEnd (pt : List Nat) (start target e : Nat) : Nat :=
  if e < pt.length ∧ (e = start ∨ pt.getD (e - 1) 0 < target) then
    scanEnd pt start target (e + 1)
  else e
termination_by pt.length - e

/-- The scan result together with the force-include guard
(lib.rs lines 156-158): if no packet was added, include exactly one. -/
def chunkEnd (pt : List Nat) (start target : Nat) : Nat :=
  let e := scanEnd pt start target start
  if e = start then start + 1 else e

theorem scanEnd_ge (pt : List Nat) (start target : Nat) :
    ∀ e, e ≤ scanEnd pt start target e := by
  intro e
  induction e using scanEnd.induct pt start target with
  | case1 e h ih =>
    rw [scanEnd, if_pos h]
    omega
  | case2 e h =>
    rw [scanEnd, if_neg h]

theorem chunkEnd_gt (pt : List Nat) (start target : Nat) :
    start < chunkEnd pt start target := by
  unfold chunkEnd
  have h1 := scanEnd_ge pt start target start
  by_cases h : scanEnd pt start target start = start
  · simp only [if_pos h]; omega
  · simp only [if_neg h]; omega

/-- The planner loop (lib.rs lines 143-187): while `chunk_start_packet <
packets.len()`, scan forward for the chunk end, record the chunk's start
time, end time (`packet_times[end-1]`, or `total_duration` when the packets
ran out) and its packet index list, then continue from the chunk end. -/
def planChunks (pt : List Nat) (total D : Nat) (start startTime : Nat) :
    List ChunkInfo :=
  if _h : start < pt.length then
    let e := chunkEnd pt start (startTime + D)
    let endTime := if e < pt.length then pt.getD (e - 1) 0 else total
    ⟨startTime, endTime, List.range' start (e - start)⟩ ::
      planChunks pt total D e endTime
  else []
termination_by pt.length - start
decreasing_by
  have := chunkEnd_gt pt start (startTime + D)
  omega

/-- `u16::to_le_bytes`: two little-endian bytes. -/
def le16 (x : Nat) : List Nat :=
  [x % 256, x / 256 % 256]

/-- `u32::to_le_bytes`: four little-endian bytes. -/
def le32 (x : Nat) : List Nat :=
  [x % 256, x / 256 % 256, x / 65536 % 256, x / 16777216 % 256]

/-- `write_wav_header` (lib.rs lines 268-301).  Arguments are the `u32`/`u16`
machine values of the source (`data_size`, `sample_rate` are `u32`;
`channels`, `bits_per_sample`, `bytes_per_sample` are `u16`); the internal
`u32`/`u16` multiplications and the `data_size + 36` addition wrap, modelled
with an explicit modulus. -/
def write_wav_header (data_size sample_rate channels bits_per_sample
    bytes_per_sample : Nat) : List Nat :=
  let byte_rate := sample_rate * channels * bytes_per_sample % 2 ^ 32
  let block_align := channels * bytes_per_sample % 2 ^ 16
  let file_size := (data_size + 36) % 2 ^ 32
  [0x52, 0x49, 0x46, 0x46] ++ le32 file_size ++ [0x57, 0x41, 0x56, 0x45] ++
    [0x66, 0x6D, 0x74, 0x20] ++ le32 16 ++ le16 1 ++ le16 channels ++
    le32 sample_rate ++ le32 byte_rate ++ le16 block_align ++
    le16 bits_per_sample ++ [0x64, 0x61, 0x74, 0x61] ++ le32 data_size

/-- The canonical 44-byte PCM WAV header exactly as the spec's table in
§4.4 states it (ChunkSize = 36 + data_size, ByteRate = SampleRate *
NumChannels * (BitsPerSample/8), BlockAlign = NumChannels *
(BitsPerSample/8), Subchunk2Size = data_size).  Written from the spec's
words, to be compared with `write_wav_header` above. -/
def canonicalHeader (data_size sample_rate channels bits_per_sample : Nat) :
    List Nat :=
  [0x52, 0x49, 0x46, 0x46] ++ le32 (36 + data_size) ++
    [0x57, 0x41, 0x56, 0x45] ++ [0x66, 0x6D, 0x74, 0x20] ++ le32 16 ++
    le16 1 ++ le16 channels ++ le32 sample_rate ++
    le32 (sample_rate * channels * (bits_per_sample / 8)) ++
    le16 (channels * (bits_per_sample / 8)) ++ le16 bits_per_sample ++
    [0x64, 0x61, 0x74, 0x61] ++ le32 data_size

/-- The chunk data size accumulation (lib.rs lines 242-245):
`chunk_data_size: u32` starts at 0 and adds `packets[idx].data.len() as u32`
for each packet index of the chunk; the cast truncates to 32 bits and the
`u32` addition wraps. -/
def chunkDataSize (packets : List Packet) (idxs : List Nat) : Nat :=
  idxs.foldl (fun acc i =>
    (acc + (packets.getD i ⟨0, []⟩).data.length % 2 ^ 32) % 2 ^ 32) 0

/-- The bytes written for one chunk (lib.rs lines 239-254): the synthesized
header for the chunk's accumulated data size, followed by the payloads of
the chunk's packets in order. -/
def writeChunkFile (packets : List Packet) (c : ChunkInfo)
    (sample_rate channels bits_per_sample bytes_per_sample : Nat) :
    List Nat :=
  write_wav_header (chunkDataSize packets c.packets) sample_rate channels
      bits_per_sample bytes_per_sample ++
    (c.packets.map fun i => (packets.getD i ⟨0, []⟩).data).flatten

/-- One answer of the demuxer collaborator's `next_packet`: a packet, an
end-of-stream signal, or a genuine error. -/
inductive Poll where
  | ok (p : Packet)
  | eos
  | failure
deriving DecidableEq

/-- The packet drain loop (lib.rs line 115): `while let Ok(packet) =
format.next_packet()` collects packets until the FIRST non-`Ok` answer —
end-of-stream and genuine errors alike stop the loop. -/
def drainPackets : List Poll → List Packet
  | [] => []
  | .ok p :: rest => p :: drainPackets rest
  | .eos :: _ => []
  | .failure :: _ => []

/-- The error outcomes of the modelled stages of `split_wav`. -/
inductive SplitError where
  | emptyStream
  | headerRead
deriving DecidableEq

/-- The modelled `split_wav` pipeline over the collaborator's answers
(lib.rs lines 115-255): drain the packets, fail with `emptyStream` if none,
build the inventory, plan the chunks, read the 44-byte template header from
the input file (failing with `headerRead` when fewer than 44 bytes exist —
the bytes themselves are never used), then produce the bytes of every chunk
file. -/
def splitWavModel (polls : List Poll) (fileBytes : List Nat)
    (D sample_rate channels bits_per_sample : Nat) :
    Except SplitError (List (List Nat)) :=
  let packets := drainPackets polls
  if packets.isEmpty then .error .emptyStream
  else
    let durs := packets.map Packet.dur
    let pt := packetTimes durs
    let total := durs.sum
    let chunks := planChunks pt total D 0 0
    if fileBytes.length < 44 then .error .headerRead
    else
      let bytes_per_sample := bits_per_sample / 8
      .ok (chunks.map fun c =>
        writeChunkFile packets c sample_rate channels bits_per_sample
          bytes_per_sample)

/-! ## Properties of the scan and of the inventory -/

theorem scanEnd_le (pt : List Nat) (start target : Nat) :
    ∀ e, e ≤ pt.length → scanEnd pt start target e ≤ pt.length := by
  intro e
  induction e using scanEnd.induct pt start target with
  | case1 e h ih =>
    intro _
    rw [scanEnd, if_pos h]
    exact ih (by omega)
  | case2 e h =>
    intro he
    rw [scanEnd, if_neg h]
    exact he

/-- When the scan stops, its stopping condition is false. -/
theorem scanEnd_stop (pt : List Nat) (start target e : Nat) :
    ¬ (scanEnd pt start target e < pt.length ∧
       (scanEnd pt start target e = start ∨
        pt.getD (scanEnd pt start target e - 1) 0 < target)) := by
  induction e using scanEnd.induct pt start target with
  | case1 e h ih =>
    rw [scanEnd, if_pos h]
    exact ih
  | case2 e h =>
    rw [scanEnd, if_neg h]
    exact h

/-- Every index the scan stepped over satisfied the loop condition. -/
theorem scanEnd_step (pt : List Nat) (start target : Nat) :
    ∀ e k, e ≤ k → k < scanEnd pt start target e →
      k < pt.length ∧ (k = start ∨ pt.getD (k - 1) 0 < target) := by
  intro e
  induction e using scanEnd.induct pt start target with
  | case1 e h ih =>
    intro k hek hk
    rcases Nat.eq_or_lt_of_le hek with rfl | hlt
    · exact h
    · rw [scanEnd, if_pos h] at hk
      exact ih k hlt hk
  | case2 e h =>
    intro k hek hk
    rw [scanEnd, if_neg h] at hk
    omega

/-- From a start index inside the inventory, the scan advances at least once
(the disjunct `e == start` holds at the first test). -/
theorem scanEnd_ne_start (pt : List Nat) (start target : Nat)
    (h : start < pt.length) : scanEnd pt start target start ≠ start := by
  have h1 : scanEnd pt start target start = scanEnd pt start target (start + 1) := by
    rw [scanEnd, if_pos ⟨h, Or.inl rfl⟩]
  have h2 := scanEnd_ge pt start target (start + 1)
  omega

theorem chunkEnd_eq_scanEnd (pt : List Nat) (start target : Nat)
    (h : start < pt.length) :
    chunkEnd pt start target = scanEnd pt start target start := by
  unfold chunkEnd
  simp only [if_neg (scanEnd_ne_start pt start target h)]

theorem chunkEnd_le (pt : List Nat) (start target : Nat)
    (h : start < pt.length) : chunkEnd pt start target ≤ pt.length := by
  unfold chunkEnd
  have h1 := scanEnd_le pt start target start (Nat.le_of_lt h)
  by_cases h2 : scanEnd pt start target start = start
  · simp only [if_pos h2]; omega
  · simp only [if_neg h2]; omega

theorem packetTimesFrom_length (t : Nat) (ds : List Nat) :
    (packetTimesFrom t ds).length = ds.length := by
  induction ds generalizing t with
  | nil => rfl
  | cons d ds ih => simp [packetTimesFrom, ih]

theorem packetTimes_length (durs : List Nat) :
    (packetTimes durs).length = durs.length :=
  packetTimesFrom_length 0 durs

/-- Sum of a take-prefix extended by one element. -/
theorem take_succ_sum (l : List Nat) :
    ∀ k, k < l.length → (l.take (k + 1)).sum = (l.take k).sum + l.getD k 0 := by
  induction l with
  | nil => intro k hk; simp at hk
  | cons a l ih =>
    intro k hk
    cases k with
    | zero => simp
    | succ k =>
      simp only [List.take_succ_cons, List.sum_cons, List.getD_cons_succ]
      rw [ih k (by simpa using hk)]
      omega

/-- The inventory entry `packet_times[k]` is the cumulative duration of
packets `0..k` inclusive. -/
theorem packetTimesFrom_getD (ds : List Nat) :
    ∀ t k, k < ds.length →
      (packetTimesFrom t ds).getD k 0 = t + (ds.take (k + 1)).sum := by
  induction ds with
  | nil => intro t k hk; simp at hk
  | cons d ds ih =>
    intro t k hk
    cases k with
    | zero => simp [packetTimesFrom]
    | succ k =>
      simp only [packetTimesFrom, List.getD_cons_succ, List.take_succ_cons,
        List.sum_cons]
      rw [ih (t + d) k (by simpa using hk)]
      omega

theorem packetTimes_getD (durs : List Nat) (k : Nat) (hk : k < durs.length) :
    (packetTimes durs).getD k 0 = (durs.take (k + 1)).sum := by
  have := packetTimesFrom_getD durs 0 k hk
  simpa [packetTimes] using this

/-! ## Structure of the chunk plan -/

/-- The packet index lists of the planned chunks, concatenated in order,
are exactly the interval `[start, pt.length)`. -/
theorem planChunks_packets_flatten (pt : List Nat) (total D : Nat) :
    ∀ start startTime,
      ((planChunks pt total D start startTime).map ChunkInfo.packets).flatten
        = List.range' start (pt.length - start) := by
  intro start startTime
  induction start, startTime using planChunks.induct pt total D with
  | case1 start startTime hlt e endTime ih =>
    rw [planChunks, dif_pos hlt]
    simp only [List.map_cons, List.flatten_cons]
    show List.range' start (e - start) ++
        ((planChunks pt total D e endTime).map ChunkInfo.packets).flatten
      = List.range' start (pt.length - start)
    rw [ih]
    have hgt : start < e := chunkEnd_gt pt start (startTime + D)
    have hle : e ≤ pt.length := chunkEnd_le pt start (startTime + D) hlt
    have happ := List.range'_append start (e - start) (pt.length - e) 1
    rw [one_mul, show start + (e - start) = e from by omega] at happ
    rw [happ,
      show pt.length - e + (e - start) = pt.length - start from by omega]
  | case2 start startTime hge =>
    rw [planChunks, dif_neg hge]
    rw [show pt.length - start = 0 from by omega]
    simp

/-- Every planned chunk holds at least one packet. -/
theorem planChunks_packets_pos (pt : List Nat) (total D : Nat) :
    ∀ start startTime c, c ∈ planChunks pt total D start startTime →
      1 ≤ c.packets.length := by
  intro start startTime
  induction start, startTime using planChunks.induct pt total D with
  | case1 start startTime hlt e endTime ih =>
    intro c hc
    rw [planChunks, dif_pos hlt] at hc
    replace hc : c ∈ (⟨startTime,
        if e < pt.length then pt.getD (e - 1) 0 else total,
        List.range' start (e - start)⟩ : ChunkInfo) ::
        planChunks pt total D e endTime := hc
    rcases List.mem_cons.mp hc with rfl | hc
    · have hgt : start < e := chunkEnd_gt pt start (startTime + D)
      simp only [List.length_range']
      omega
    · exact ih c hc
  | case2 start startTime hge =>
    intro c hc
    rw [planChunks, dif_neg hge] at hc
    simp at hc

/-- The plan never has more chunks than there are packets left. -/
theorem planChunks_length_le (pt : List Nat) (total D : Nat) :
    ∀ start startTime,
      (planChunks pt total D start startTime).length ≤ pt.length - start := by
  intro start startTime
  induction start, startTime using planChunks.induct pt total D with
  | case1 start startTime hlt e endTime ih =>
    rw [planChunks, dif_pos hlt]
    simp only [List.length_cons]
    show (planChunks pt total D e endTime).length + 1 ≤ pt.length - start
    have hgt : start < e := chunkEnd_gt pt start (startTime + D)
    have hle : e ≤ pt.length := chunkEnd_le pt start (startTime + D) hlt
    omega
  | case2 start startTime hge =>
    rw [planChunks, dif_neg hge]
    simp

/-- A plan started inside the inventory is non-empty. -/
theorem planChunks_length_pos (pt : List Nat) (total D : Nat)
    (start startTime : Nat) (h : start < pt.length) :
    1 ≤ (planChunks pt total D start startTime).length := by
  rw [planChunks, dif_pos h]
  simp

theorem range'_getLastD (s n d : Nat) (h : 0 < n) :
    (List.range' s n).getLastD d = s + n - 1 := by
  obtain ⟨m, rfl⟩ : ∃ m, n = m + 1 := ⟨n - 1, by omega⟩
  rw [List.range'_concat, List.getLastD_concat]
  omega

/-- Duration bounds for every non-final chunk of a plan whose start time is
the cumulative duration of the packets before `start`: the chunk lasts at
least `D`, and exceeds `D` by at most the duration of its last packet. -/
theorem planChunks_dropLast_bounds (durs : List Nat) (D : Nat) :
    ∀ start startTime, startTime = (durs.take start).sum →
      ∀ c ∈ (planChunks (packetTimes durs) durs.sum D start startTime).dropLast,
        D ≤ c.end_time - c.start_time ∧
        c.end_time - c.start_time ≤ D + durs.getD (c.packets.getLastD 0) 0 := by
  intro start startTime
  induction start, startTime using planChunks.induct (packetTimes durs) durs.sum D with
  | case1 start startTime hlt e endTime ih =>
    intro hst c hc
    have hpt : (packetTimes durs).length = durs.length := packetTimes_length durs
    have hgt : start < e := chunkEnd_gt (packetTimes durs) start (startTime + D)
    have hle : e ≤ (packetTimes durs).length :=
      chunkEnd_le (packetTimes durs) start (startTime + D) hlt
    rw [planChunks, dif_pos hlt] at hc
    replace hc : c ∈ ((⟨startTime,
        if e < (packetTimes durs).length
          then (packetTimes durs).getD (e - 1) 0 else durs.sum,
        List.range' start (e - start)⟩ : ChunkInfo) ::
        planChunks (packetTimes durs) durs.sum D e endTime).dropLast := hc
    by_cases hrest : e < (packetTimes durs).length
    · have hnil : planChunks (packetTimes durs) durs.sum D e endTime ≠ [] := by
        rw [planChunks, dif_pos hrest]
        simp
      obtain ⟨r, rs, hr⟩ := List.exists_cons_of_ne_nil hnil
      rw [if_pos hrest, hr, List.dropLast_cons₂, ← hr] at hc
      have hend : endTime = (durs.take e).sum := by
        show (if e < (packetTimes durs).length
            then (packetTimes durs).getD (e - 1) 0 else durs.sum)
          = (durs.take e).sum
        rw [if_pos hrest, packetTimes_getD durs (e - 1) (by omega),
          show e - 1 + 1 = e from by omega]
      rcases List.mem_cons.mp hc with rfl | hc
      · dsimp only
        rw [range'_getLastD start (e - start) 0 (by omega),
          show start + (e - start) - 1 = e - 1 from by omega]
        have hstop : ¬ (e < (packetTimes durs).length ∧
            (e = start ∨ (packetTimes durs).getD (e - 1) 0 < startTime + D)) := by
          show ¬ (chunkEnd (packetTimes durs) start (startTime + D) < _ ∧
            (chunkEnd (packetTimes durs) start (startTime + D) = start ∨
             (packetTimes durs).getD
               (chunkEnd (packetTimes durs) start (startTime + D) - 1) 0 <
                 startTime + D))
          rw [chunkEnd_eq_scanEnd (packetTimes durs) start (startTime + D) hlt]
          exact scanEnd_stop (packetTimes durs) start (startTime + D) start
        have hDle : startTime + D ≤ (packetTimes durs).getD (e - 1) 0 := by
          omega
        have hev : (packetTimes durs).getD (e - 1) 0 = (durs.take e).sum := by
          rw [packetTimes_getD durs (e - 1) (by omega),
            show e - 1 + 1 = e from by omega]
        constructor
        · omega
        · by_cases heq : e = start + 1
          · have h1 : (durs.take e).sum
                = (durs.take start).sum + durs.getD start 0 := by
              rw [heq]
              exact take_succ_sum durs start (by omega)
            rw [show e - 1 = start from by omega] at hev hDle ⊢
            omega
          · have hlt2 : e - 1 <
                scanEnd (packetTimes durs) start (startTime + D) start := by
              rw [← chunkEnd_eq_scanEnd (packetTimes durs) start
                (startTime + D) hlt]
              show e - 1 < e
              omega
            have hstep := scanEnd_step (packetTimes durs) start (startTime + D)
              start (e - 1) (by omega) hlt2
            have hcum : (packetTimes durs).getD (e - 1 - 1) 0 < startTime + D := by
              omega
            have h2 : (packetTimes durs).getD (e - 2) 0
                = (durs.take (e - 1)).sum := by
              rw [packetTimes_getD durs (e - 2) (by omega),
                show e - 2 + 1 = e - 1 from by omega]
            have h3 : (durs.take e).sum
                = (durs.take (e - 1)).sum + durs.getD (e - 1) 0 := by
              have := take_succ_sum durs (e - 1) (by omega)
              rw [show e - 1 + 1 = e from by omega] at this
              exact this
            rw [show e - 1 - 1 = e - 2 from rfl] at hcum
            omega
      · exact ih hend c hc
    · have hnil : planChunks (packetTimes durs) durs.sum D e endTime = [] := by
        rw [planChunks, dif_neg hrest]
      rw [hnil] at hc
      simp at hc
  | case2 start startTime hge =>
    intro hst c hc
    rw [planChunks, dif_neg hge] at hc
    simp at hc

/-- When the requested duration is below every packet duration, the scan
includes exactly one packet per chunk. -/
theorem planChunks_singleton_aux (durs : List Nat) (D : Nat)
    (hsmall : ∀ d ∈ durs, D < d) :
    ∀ start startTime, startTime = (durs.take start).sum →
      ∀ c ∈ planChunks (packetTimes durs) durs.sum D start startTime,
        c.packets.length = 1 := by
  intro start startTime
  induction start, startTime using planChunks.induct (packetTimes durs) durs.sum D with
  | case1 start startTime hlt e endTime ih =>
    intro hst c hc
    have hpt : (packetTimes durs).length = durs.length := packetTimes_length durs
    have hkey : e = start + 1 := by
      show chunkEnd (packetTimes durs) start (startTime + D) = start + 1
      rw [chunkEnd_eq_scanEnd (packetTimes durs) start (startTime + D) hlt]
      have h1 : scanEnd (packetTimes durs) start (startTime + D) start
          = scanEnd (packetTimes durs) start (startTime + D) (start + 1) := by
        rw [scanEnd, if_pos ⟨hlt, Or.inl rfl⟩]
      have h2 : scanEnd (packetTimes durs) start (startTime + D) (start + 1)
          = start + 1 := by
        rw [scanEnd, if_neg]
        rintro ⟨hlen, hdisj⟩
        rcases hdisj with hd | hd
        · omega
        · have hmem : durs.getD start 0 ∈ durs := by
            rw [List.getD_eq_getElem durs 0 (show start < durs.length from by omega)]
            exact List.getElem_mem _
          have hD := hsmall _ hmem
          rw [show start + 1 - 1 = start from rfl,
            packetTimes_getD durs start (by omega),
            take_succ_sum durs start (by omega), ← hst] at hd
          omega
      rw [h1, h2]
    rw [planChunks, dif_pos hlt] at hc
    replace hc : c ∈ (⟨startTime,
        if e < (packetTimes durs).length
          then (packetTimes durs).getD (e - 1) 0 else durs.sum,
        List.range' start (e - start)⟩ : ChunkInfo) ::
        planChunks (packetTimes durs) durs.sum D e endTime := hc
    rcases List.mem_cons.mp hc with rfl | hc
    · dsimp only
      rw [List.length_range']
      omega
    · have hend : endTime = (durs.take e).sum := by
        show (if e < (packetTimes durs).length
            then (packetTimes durs).getD (e - 1) 0 else durs.sum)
          = (durs.take e).sum
        by_cases hrest : e < (packetTimes durs).length
        · rw [if_pos hrest, packetTimes_getD durs (e - 1) (by omega),
            show e - 1 + 1 = e from by omega]
        · rw [if_neg hrest]
          have hle : e ≤ (packetTimes durs).length :=
            chunkEnd_le (packetTimes durs) start (startTime + D) hlt
          rw [show e = durs.length from by omega, List.take_length]
      exact ih hend c hc
  | case2 start startTime hge =>
    intro hst c hc
    rw [planChunks, dif_neg hge] at hc
    simp at hc

/-! ## The WAV writer -/

theorem write_wav_header_length (data_size sample_rate channels
    bits_per_sample bytes_per_sample : Nat) :
    (write_wav_header data_size sample_rate channels bits_per_sample
      bytes_per_sample).length = 44 := by
  simp [write_wav_header, le32, le16]

theorem canonicalHeader_length (data_size sample_rate channels
    bits_per_sample : Nat) :
    (canonicalHeader data_size sample_rate channels bits_per_sample).length
      = 44 := by
  simp [canonicalHeader, le32, le16]

/-- The `u32` accumulation of the chunk data size equals the true payload
byte sum reduced modulo `2 ^ 32`. -/
theorem chunkDataSize_eq (packets : List Packet) (idxs : List Nat) :
    chunkDataSize packets idxs
      = (idxs.map fun i => (packets.getD i ⟨0, []⟩).data.length).sum % 2 ^ 32 := by
  have haux : ∀ (l : List Nat) (acc : Nat), acc < 2 ^ 32 →
      l.foldl (fun acc i =>
        (acc + (packets.getD i ⟨0, []⟩).data.length % 2 ^ 32) % 2 ^ 32) acc
      = (acc + (l.map fun i => (packets.getD i ⟨0, []⟩).data.length).sum)
          % 2 ^ 32 := by
    intro l
    induction l with
    | nil =>
      intro acc h
      simp only [List.foldl_nil, List.map_nil, List.sum_nil, Nat.add_zero]
      rw [Nat.mod_eq_of_lt h]
    | cons i is ih =>
      intro acc h
      simp only [List.foldl_cons, List.map_cons, List.sum_cons]
      rw [ih _ (Nat.mod_lt _ (by norm_num))]
      calc ((acc + (packets.getD i ⟨0, []⟩).data.length % 2 ^ 32) % 2 ^ 32 +
              (is.map fun j => (packets.getD j ⟨0, []⟩).data.length).sum)
            % 2 ^ 32
          = (acc + (packets.getD i ⟨0, []⟩).data.length % 2 ^ 32 +
              (is.map fun j => (packets.getD j ⟨0, []⟩).data.length).sum)
            % 2 ^ 32 := Nat.mod_add_mod _ _ _
        _ = (acc + (packets.getD i ⟨0, []⟩).data.length +
              (is.map fun j => (packets.getD j ⟨0, []⟩).data.length).sum)
            % 2 ^ 32 :=
            ((Nat.mod_modEq (packets.getD i ⟨0, []⟩).data.length
              (2 ^ 32)).add_left acc).add_right _
        _ = (acc + ((packets.getD i ⟨0, []⟩).data.length +
              (is.map fun j => (packets.getD j ⟨0, []⟩).data.length).sum))
            % 2 ^ 32 := by rw [Nat.add_assoc]
  have := haux idxs 0 (by norm_num)
  simpa [chunkDataSize] using this

/-- Reading back a list by `getD` over its index range reproduces it. -/
theorem map_getD_range {α : Type} (l : List α) (d : α) :
    (List.range l.length).map (fun i => l.getD i d) = l := by
  apply List.ext_getElem
  · simp
  · intro i h1 h2
    simp only [List.getElem_map, List.getElem_range]
    exact List.getD_eq_getElem l d h2

theorem flatten_map_flatten (plan : List ChunkInfo) (g : Nat → List Nat) :
    (plan.map fun c => (c.packets.map g).flatten).flatten
      = ((plan.map ChunkInfo.packets).flatten.map g).flatten := by
  induction plan with
  | nil => simp
  | cons c rest ih => simp [ih]

/-! ## The claims -/

/-- C1: for every packet inventory with `N ≥ 1` packets and every requested
chunk duration `D > 0`, the chunk plan partitions the packet index range
`[0, N)`: the descriptors' packet ranges are contiguous, non-empty,
non-overlapping, in increasing order, and their concatenation is exactly
`[0, N)` — no packet is assigned to two chunks and no packet is dropped. -/
theorem C1_plan_partitions (durs : List Nat) (D : Nat)
    (_hN : 1 ≤ durs.length) (_hD : 0 < D) :
    ((planChunks (packetTimes durs) durs.sum D 0 0).map
        ChunkInfo.packets).flatten = List.range durs.length ∧
    ∀ c ∈ planChunks (packetTimes durs) durs.sum D 0 0, c.packets ≠ [] := by
  constructor
  · rw [planChunks_packets_flatten, Nat.sub_zero, packetTimes_length,
      List.range_eq_range']
  · intro c hc
    have := planChunks_packets_pos (packetTimes durs) durs.sum D 0 0 c hc
    exact List.length_pos.mp (by omega)

theorem C1_witness :
    1 ≤ ([2, 3] : List Nat).length ∧ (0 : Nat) < 2 ∧
    (((planChunks (packetTimes [2, 3]) ([2, 3] : List Nat).sum 2 0 0).map
        ChunkInfo.packets).flatten = List.range ([2, 3] : List Nat).length ∧
      ∀ c ∈ planChunks (packetTimes [2, 3]) ([2, 3] : List Nat).sum 2 0 0,
        c.packets ≠ []) :=
  ⟨by decide, by decide, C1_plan_partitions [2, 3] 2 (by decide) (by decide)⟩

/-- C2: in every plan built from an inventory with `N ≥ 1` packets and a
requested duration `D > 0`, every chunk except the last lasts at least `D`,
and exceeds `D` by at most the duration of that chunk's last packet; only
the final chunk may be shorter than `D`. -/
theorem C2_nonfinal_duration_bounds (durs : List Nat) (D : Nat)
    (_hN : 1 ≤ durs.length) (_hD : 0 < D) :
    ∀ c ∈ (planChunks (packetTimes durs) durs.sum D 0 0).dropLast,
      D ≤ c.end_time - c.start_time ∧
      c.end_time - c.start_time ≤ D + durs.getD (c.packets.getLastD 0) 0 :=
  planChunks_dropLast_bounds durs D 0 0 rfl

theorem C2_witness :
    1 ≤ ([1, 1, 1] : List Nat).length ∧ (0 : Nat) < 2 ∧
    ∀ c ∈ (planChunks (packetTimes [1, 1, 1])
        ([1, 1, 1] : List Nat).sum 2 0 0).dropLast,
      2 ≤ c.end_time - c.start_time ∧
      c.end_time - c.start_time
        ≤ 2 + ([1, 1, 1] : List Nat).getD (c.packets.getLastD 0) 0 :=
  ⟨by decide, by decide,
    C2_nonfinal_duration_bounds [1, 1, 1] 2 (by decide) (by decide)⟩

/-- C7: for every inventory with `N ≥ 1` packets and duration `D > 0`, the
planning loop terminates (the planner is a total function here; each
iteration assigns at least one packet), and the plan holds at least one and
at most `N` chunks. -/
theorem C7_termination_progress (durs : List Nat) (D : Nat)
    (hN : 1 ≤ durs.length) (_hD : 0 < D) :
    1 ≤ (planChunks (packetTimes durs) durs.sum D 0 0).length ∧
    (planChunks (packetTimes durs) durs.sum D 0 0).length ≤ durs.length ∧
    ∀ c ∈ planChunks (packetTimes durs) durs.sum D 0 0,
      1 ≤ c.packets.length := by
  refine ⟨?_, ?_, planChunks_packets_pos (packetTimes durs) durs.sum D 0 0⟩
  · exact planChunks_length_pos (packetTimes durs) durs.sum D 0 0
      (by rw [packetTimes_length]; omega)
  · have h := planChunks_length_le (packetTimes durs) durs.sum D 0 0
    rw [Nat.sub_zero, packetTimes_length] at h
    exact h

theorem C7_witness :
    1 ≤ ([4, 4] : List Nat).length ∧ (0 : Nat) < 3 ∧
    (1 ≤ (planChunks (packetTimes [4, 4]) ([4, 4] : List Nat).sum 3 0 0).length ∧
      (planChunks (packetTimes [4, 4])
        ([4, 4] : List Nat).sum 3 0 0).length ≤ ([4, 4] : List Nat).length ∧
      ∀ c ∈ planChunks (packetTimes [4, 4]) ([4, 4] : List Nat).sum 3 0 0,
        1 ≤ c.packets.length) :=
  ⟨by decide, by decide, C7_termination_progress [4, 4] 3 (by decide) (by decide)⟩

/-- C8: if the requested duration `D` is shorter than the duration of every
packet of the inventory, every chunk of the plan contains exactly one
packet (the witness instantiates the claim's 5-second single-packet
scenario with `D = 1`, yielding exactly one chunk covering the full 5s). -/
theorem C8_one_packet_chunks (durs : List Nat) (D : Nat)
    (hsmall : ∀ d ∈ durs, D < d) :
    ∀ c ∈ planChunks (packetTimes durs) durs.sum D 0 0,
      c.packets.length = 1 :=
  planChunks_singleton_aux durs D hsmall 0 0 rfl

theorem C8_witness :
    (∀ d ∈ ([5] : List Nat), 1 < d) ∧
    (∀ c ∈ planChunks (packetTimes [5]) ([5] : List Nat).sum 1 0 0,
      c.packets.length = 1) ∧
    planChunks (packetTimes [5]) ([5] : List Nat).sum 1 0 0
      = [⟨0, 5, [0]⟩] :=
  ⟨by decide, C8_one_packet_chunks [5] 1 (by decide),
    by simp [planChunks, chunkEnd, scanEnd, packetTimes, packetTimesFrom]⟩

/-- C10: the planner's force-include guard is unreachable: whenever
`chunk_start_packet < N`, the scan's `chunk_end_packet == chunk_start_packet`
disjunct makes the cursor advance at least once, so the guard's condition is
false when evaluated and `chunkEnd` returns the scan result unchanged. -/
theorem C10_force_include_unreachable (pt : List Nat) (start target : Nat)
    (h : start < pt.length) :
    scanEnd pt start target start ≠ start ∧
    chunkEnd pt start target = scanEnd pt start target start :=
  ⟨scanEnd_ne_start pt start target h, chunkEnd_eq_scanEnd pt start target h⟩

theorem C10_witness :
    0 < ([3] : List Nat).length ∧
    (scanEnd [3] 0 7 0 ≠ 0 ∧ chunkEnd [3] 0 7 = scanEnd [3] 0 7 0) :=
  ⟨by decide, C10_force_include_unreachable [3] 0 7 (by decide)⟩

/-- C3: for every chunk the writer emits exactly 44 header bytes followed by
the chunk's payload bytes, with all integer fields little-endian and laid
out per the canonical table (ChunkSize = 36 + data_size, Subchunk1Size = 16,
AudioFormat = 1, ByteRate = SampleRate * NumChannels * (BitsPerSample/8),
BlockAlign = NumChannels * (BitsPerSample/8), Subchunk2Size = data_size),
where data_size is the sum of the chunk's packet payload byte lengths,
computed before the header is written.  The hypotheses state that the `u32`
and `u16` machine arithmetic does not wrap (C9 covers the wrapping). -/
theorem C3_header_layout (packets : List Packet) (c : ChunkInfo)
    (sr ch bits : Nat)
    (hsum : (c.packets.map fun i =>
        (packets.getD i ⟨0, []⟩).data.length).sum + 36 < 2 ^ 32)
    (hrate : sr * ch * (bits / 8) < 2 ^ 32)
    (halign : ch * (bits / 8) < 2 ^ 16) :
    writeChunkFile packets c sr ch bits (bits / 8)
      = canonicalHeader
          ((c.packets.map fun i => (packets.getD i ⟨0, []⟩).data.length).sum)
          sr ch bits
        ++ (c.packets.map fun i => (packets.getD i ⟨0, []⟩).data).flatten
      ∧ (canonicalHeader
          ((c.packets.map fun i => (packets.getD i ⟨0, []⟩).data.length).sum)
          sr ch bits).length = 44 := by
  refine ⟨?_, canonicalHeader_length _ _ _ _⟩
  unfold writeChunkFile
  congr 1
  rw [chunkDataSize_eq packets c.packets,
    Nat.mod_eq_of_lt (show (c.packets.map fun i =>
      (packets.getD i ⟨0, []⟩).data.length).sum < 2 ^ 32 from by omega)]
  simp only [write_wav_header, canonicalHeader]
  rw [Nat.mod_eq_of_lt hrate, Nat.mod_eq_of_lt halign,
    Nat.mod_eq_of_lt (show (c.packets.map fun i =>
      (packets.getD i ⟨0, []⟩).data.length).sum + 36 < 2 ^ 32 from hsum),
    Nat.add_comm ((c.packets.map fun i =>
      (packets.getD i ⟨0, []⟩).data.length).sum) 36]

theorem C3_witness :
    ((([0].map fun i =>
        (([⟨1, [7, 8]⟩] : List Packet).getD i ⟨0, []⟩).data.length).sum + 36
        < 2 ^ 32) ∧
      44100 * 2 * (16 / 8) < 2 ^ 32 ∧ 2 * (16 / 8) < 2 ^ 16) ∧
    (writeChunkFile [⟨1, [7, 8]⟩] ⟨0, 1, [0]⟩ 44100 2 16 (16 / 8)
      = canonicalHeader
          (([0].map fun i =>
            (([⟨1, [7, 8]⟩] : List Packet).getD i ⟨0, []⟩).data.length).sum)
          44100 2 16
        ++ ([0].map fun i =>
            (([⟨1, [7, 8]⟩] : List Packet).getD i ⟨0, []⟩).data).flatten
      ∧ (canonicalHeader
          (([0].map fun i =>
            (([⟨1, [7, 8]⟩] : List Packet).getD i ⟨0, []⟩).data.length).sum)
          44100 2 16).length = 44) :=
  ⟨⟨by decide, by decide, by decide⟩,
    C3_header_layout [⟨1, [7, 8]⟩] ⟨0, 1, [0]⟩ 44100 2 16
      (by decide) (by decide) (by decide)⟩

/-- C9: the chunk data size is accumulated in 32-bit unsigned arithmetic:
each payload length is truncated to 32 bits before summing and the sum
wraps, so the accumulated value is the true byte sum modulo `2 ^ 32`, and it
equals the true sum exactly when that sum is below `2 ^ 32`. -/
theorem C9_u32_truncation (packets : List Packet) (idxs : List Nat) :
    chunkDataSize packets idxs
      = (idxs.map fun i => (packets.getD i ⟨0, []⟩).data.length).sum % 2 ^ 32 ∧
    (chunkDataSize packets idxs
        = (idxs.map fun i => (packets.getD i ⟨0, []⟩).data.length).sum
      ↔ (idxs.map fun i => (packets.getD i ⟨0, []⟩).data.length).sum
          < 2 ^ 32) := by
  refine ⟨chunkDataSize_eq packets idxs, ?_, ?_⟩
  · intro h
    rw [chunkDataSize_eq packets idxs] at h
    have h2 : (idxs.map fun i =>
        (packets.getD i ⟨0, []⟩).data.length).sum % 2 ^ 32 < 2 ^ 32 :=
      Nat.mod_lt _ (by norm_num)
    omega
  · intro h
    rw [chunkDataSize_eq packets idxs, Nat.mod_eq_of_lt h]

/-- C5 counterexample: the claim "an error returned by the demuxer's
`next_packet` while draining aborts the whole operation and is surfaced" is
false: on a stream whose second answer is a genuine error, the run still
succeeds (the error is treated as end-of-stream; the packet after it is
silently dropped). -/
theorem C5_counterexample :
    Poll.failure ∈ [Poll.ok ⟨1, [7]⟩, Poll.failure, Poll.ok ⟨1, [8, 9]⟩] ∧
    splitWavModel [Poll.ok ⟨1, [7]⟩, Poll.failure, Poll.ok ⟨1, [8, 9]⟩]
        (List.replicate 44 0) 1 44100 2 16
      = .ok [write_wav_header 1 44100 2 16 2 ++ [7]] := by
  constructor
  · decide
  · simp [splitWavModel, drainPackets, planChunks, chunkEnd, scanEnd,
      packetTimes, packetTimesFrom, writeChunkFile, chunkDataSize]

/-- C5 amended: an error from `next_packet` is not surfaced — the drain
loop treats it exactly like end-of-stream, keeping the packets read so far
and dropping everything after it; the whole pipeline behaves identically on
a stream that errors and on one that ends at the same point.  (Failures of
the other modelled stages — empty stream, template header read — do abort,
as proved for C6.) -/
theorem C5_error_treated_as_eos (xs ys : List Poll) :
    drainPackets (xs ++ Poll.failure :: ys)
      = drainPackets (xs ++ Poll.eos :: ys) ∧
    ∀ fileBytes D sr ch bits,
      splitWavModel (xs ++ Poll.failure :: ys) fileBytes D sr ch bits
        = splitWavModel (xs ++ Poll.eos :: ys) fileBytes D sr ch bits := by
  have hdrain : drainPackets (xs ++ Poll.failure :: ys)
      = drainPackets (xs ++ Poll.eos :: ys) := by
    induction xs with
    | nil => rfl
    | cons p xs ih =>
      cases p with
      | ok q =>
        simp only [List.cons_append, drainPackets]
        exact congrArg (q :: ·) ih
      | eos => rfl
      | failure => rfl
  refine ⟨hdrain, fun fileBytes D sr ch bits => ?_⟩
  unfold splitWavModel
  rw [hdrain]

/-- C6: after planning and before writing any chunk, the operation samples
the first 44 bytes of the input file as a template header and fails with
the header-read error whenever fewer than 44 bytes are available; with at
least 44 bytes the step never fails, and — the bytes being unused — the
whole result is independent of the file's contents. -/
theorem C6_template_header_read :
    (∀ polls fileBytes D sr ch bits, drainPackets polls ≠ [] →
      fileBytes.length < 44 →
      splitWavModel polls fileBytes D sr ch bits = .error .headerRead) ∧
    (∀ polls f1 f2 D sr ch bits, 44 ≤ f1.length → 44 ≤ f2.length →
      splitWavModel polls f1 D sr ch bits = splitWavModel polls f2 D sr ch bits ∧
      splitWavModel polls f1 D sr ch bits ≠ .error .headerRead) := by
  constructor
  · intro polls fileBytes D sr ch bits hne hlt
    simp only [splitWavModel]
    rw [if_neg (by simp [List.isEmpty_iff, hne]), if_pos hlt]
  · intro polls f1 f2 D sr ch bits h1 h2
    simp only [splitWavModel]
    by_cases hemp : (drainPackets polls).isEmpty
    · rw [if_pos hemp, if_pos hemp]
      refine ⟨rfl, ?_⟩
      simp only [ne_eq, Except.error.injEq]
      decide
    · rw [if_neg hemp, if_neg hemp, if_neg (by omega), if_neg (by omega)]
      exact ⟨rfl, fun hcon => Except.noConfusion hcon⟩

theorem C6_witness :
    drainPackets [Poll.ok ⟨1, [5]⟩] ≠ [] ∧ ([] : List Nat).length < 44 ∧
    splitWavModel [Poll.ok ⟨1, [5]⟩] [] 1 44100 2 16 = .error .headerRead :=
  ⟨by decide, by decide,
    C6_template_header_read.1 [Poll.ok ⟨1, [5]⟩] [] 1 44100 2 16
      (by decide) (by decide)⟩

/-- C4: for every successful run, concatenating the payload sections (the
bytes after the 44-byte header) of the output files in chunk order yields
exactly the concatenation, in decode order, of all packet payload bytes of
the input stream — a byte-for-byte round trip with no loss, duplication or
reordering. -/
theorem C4_round_trip (polls : List Poll) (fileBytes : List Nat)
    (D sr ch bits : Nat) (outs : List (List Nat))
    (h : splitWavModel polls fileBytes D sr ch bits = .ok outs) :
    (outs.map fun f => f.drop 44).flatten
      = ((drainPackets polls).map Packet.data).flatten := by
  simp only [splitWavModel] at h
  split at h
  · exact Except.noConfusion h
  split at h
  · exact Except.noConfusion h
  rw [Except.ok.injEq] at h
  subst h
  rw [List.map_map]
  have hdrop : ((fun f => f.drop 44) ∘ fun c =>
      writeChunkFile (drainPackets polls) c sr ch bits (bits / 8))
      = fun c => ((c.packets.map fun i =>
          ((drainPackets polls).getD i ⟨0, []⟩).data).flatten) := by
    funext c
    simp only [Function.comp]
    unfold writeChunkFile
    rw [← write_wav_header_length
        (chunkDataSize (drainPackets polls) c.packets) sr ch bits (bits / 8),
      List.drop_left]
  rw [hdrop, flatten_map_flatten, planChunks_packets_flatten, Nat.sub_zero,
    packetTimes_length, List.length_map, ← List.range_eq_range']
  congr 1
  have hread := map_getD_range (drainPackets polls) (⟨0, []⟩ : Packet)
  calc (List.range (drainPackets polls).length).map
        (fun i => ((drainPackets polls).getD i ⟨0, []⟩).data)
      = ((List.range (drainPackets polls).length).map
          (fun i => (drainPackets polls).getD i ⟨0, []⟩)).map Packet.data :=
        (List.map_map _ _ _).symm
    _ = (drainPackets polls).map Packet.data := by rw [hread]

theorem C4_witness :
    splitWavModel [Poll.ok ⟨1, [7]⟩, Poll.ok ⟨1, [8, 9]⟩, Poll.eos]
        (List.replicate 44 0) 1 44100 2 16
      = .ok [write_wav_header 1 44100 2 16 2 ++ [7],
             write_wav_header 2 44100 2 16 2 ++ [8, 9]] ∧
    (([write_wav_header 1 44100 2 16 2 ++ [7],
       write_wav_header 2 44100 2 16 2 ++ [8, 9]].map
        fun f => f.drop 44).flatten
      = ((drainPackets [Poll.ok ⟨1, [7]⟩, Poll.ok ⟨1, [8, 9]⟩, Poll.eos]).map
          Packet.data).flatten) :=
  ⟨by simp [splitWavModel, drainPackets, planChunks, chunkEnd, scanEnd,
      packetTimes, packetTimesFrom, writeChunkFile, chunkDataSize],
    C4_round_trip [Poll.ok ⟨1, [7]⟩, Poll.ok ⟨1, [8, 9]⟩, Poll.eos]
      (List.replicate 44 0) 1 44100 2 16
      [write_wav_header 1 44100 2 16 2 ++ [7],
       write_wav_header 2 44100 2 16 2 ++ [8, 9]]
      (by simp [splitWavModel, drainPackets, planChunks, chunkEnd, scanEnd,
        packetTimes, packetTimesFrom, writeChunkFile, chunkDataSize])⟩

end WavSplitter
